import Mathlib

/-!
Verification of the police-station coverage engine
(`city_police_coverage_simulation/city_skylines_bfs_kdtree.py`).

The embedding below translates the four core functions of the script:

* `get_nearest_distance_to_police_stations_brutal_force` — a fold of `min`
  over the Chebyshev distances to all stations, starting from `float('inf')`
  (modelled by `⊤ : WithTop ℕ`);
* `get_nearest_distance_to_police_stations_bfs` — the multi-source BFS over
  the grid with a FIFO queue, a visited matrix and a distance map initialised
  to `0` (`np.full((rows, cols), 0)`), modelled with explicit state passing
  and a fuel argument large enough to run the loop to completion;
* `get_nearest_distance_to_police_stations_kd_tree` — the scipy call
  `KDTree(police_stations).query((i, j), p=np.inf)`, whose semantics on exact
  integer inputs is the exact minimum L∞ (Chebyshev) distance to the points
  the tree was built from, and which raises when the point list is empty
  (modelled by `Option`);
* `get_largest_nearest_distance_to_police_stations` — the radius solver:
  a `max`-fold of the KD-tree per-cell distance over all grid cells,
  starting from `0`, with Python's exception propagation modelled by the
  `Option` monad.

Coordinates are integer pairs (`ℤ × ℤ`), matching Python's unbounded ints.
-/

namespace PoliceCoverage

/-- Chebyshev distance `max(abs(i - py), abs(j - px))` between the cell
`(i, j)` and the station `(py, px)`. -/
def cheb (i j py px : ℤ) : ℕ :=
  max (i - py).natAbs (j - px).natAbs

/-- `0 <= y < rows and 0 <= x < cols`: the bounds test used by the BFS. -/
def inBounds (rows cols : ℤ) (c : ℤ × ℤ) : Bool :=
  decide (0 ≤ c.1) && decide (c.1 < rows) && decide (0 ≤ c.2) && decide (c.2 < cols)

/-- Source: `get_nearest_distance_to_police_stations_brutal_force`.
`distance = float('inf'); for py, px in police_stations: distance =
min(distance, max(abs(i - py), abs(j - px))); return distance`. -/
def get_nearest_distance_to_police_stations_brutal_force
    (i j : ℤ) (police_stations : List (ℤ × ℤ)) : WithTop ℕ :=
  police_stations.foldl
    (fun distance s => min distance (WithTop.some (cheb i j s.1 s.2))) ⊤

/-- Source: `get_nearest_distance_to_police_stations_kd_tree`, i.e. the call
`KDTree(police_stations).query((i, j), p=np.inf)`.  On exact integer data
the query returns the exact minimum L∞ distance from `(i, j)` to the points
of the tree; building the tree from an empty point list raises, modelled by
`none`. -/
def get_nearest_distance_to_police_stations_kd_tree
    (i j : ℤ) (police_stations : List (ℤ × ℤ)) : Option ℕ :=
  (police_stations.map (fun s => cheb i j s.1 s.2)).min?

/-- The cells `(i, j)` enumerated by `for i in range(rows): for j in
range(cols)`; empty when `rows ≤ 0` or `cols ≤ 0`, exactly like `range`. -/
def cellsOf (rows cols : ℤ) : List (ℤ × ℤ) :=
  (List.range rows.toNat).flatMap
    (fun i => (List.range cols.toNat).map (fun j => (Int.ofNat i, Int.ofNat j)))

/-- Source: `get_largest_nearest_distance_to_police_stations`.
`max_distance = 0`, then for every cell of the grid the KD-tree per-cell
distance is computed and folded with `max`; a raised exception (empty
station list) aborts the loop, which the `Option` bind reproduces. -/
def get_largest_nearest_distance_to_police_stations
    (rows cols : ℤ) (police_stations : List (ℤ × ℤ)) : Option ℕ :=
  (cellsOf rows cols).foldlM
    (fun max_distance c =>
      (get_nearest_distance_to_police_stations_kd_tree c.1 c.2 police_stations).map
        (fun distance => max max_distance distance))
    0

/-- The eight king-move offsets of the BFS, in source order. -/
def directions : List (ℤ × ℤ) :=
  [(-1, 0), (1, 0), (0, -1), (0, 1), (-1, -1), (-1, 1), (1, -1), (1, 1)]

/-- State of the multi-source BFS: the numpy `distance_map` (a total map,
initialised to `0` like `np.full((rows, cols), 0)`), the boolean `visited`
matrix (as the set of `True` cells) and the FIFO `queue` of
`(y, x, dist)` entries. -/
@[ext]
structure BfsState where
  dmap : ℤ × ℤ → ℕ
  visited : Finset (ℤ × ℤ)
  queue : List ((ℤ × ℤ) × ℕ)

/-- Body of the initialisation loop: an in-bounds station is appended to
the queue with distance `0`, marked visited and written `0` in the map;
an out-of-bounds station is skipped.  There is no visited check here, so a
duplicated station is enqueued once per occurrence. -/
def bfsInitStep (rows cols : ℤ) (st : BfsState) (s : ℤ × ℤ) : BfsState :=
  if inBounds rows cols s = true then
    { dmap := fun c => if c = s then 0 else st.dmap c
      visited := insert s st.visited
      queue := st.queue ++ [(s, 0)] }
  else st

/-- Initialisation of the BFS from the station list, starting from the
all-zero `np.full((rows, cols), 0)` map, no visited cell and an empty
queue. -/
def bfsInit (rows cols : ℤ) (police_stations : List (ℤ × ℤ)) : BfsState :=
  police_stations.foldl (bfsInitStep rows cols)
    { dmap := fun _ => 0, visited := ∅, queue := [] }

/-- Body of the inner `for dy, dx in directions` loop: an in-bounds,
unvisited neighbour is marked visited, assigned `dist + 1` and enqueued. -/
def bfsBody (rows cols : ℤ) (p : ℤ × ℤ) (dist : ℕ) (st : BfsState) (d : ℤ × ℤ) :
    BfsState :=
  if inBounds rows cols (p.1 + d.1, p.2 + d.2) = true ∧ (p.1 + d.1, p.2 + d.2) ∉ st.visited then
    { dmap := fun c => if c = (p.1 + d.1, p.2 + d.2) then dist + 1 else st.dmap c
      visited := insert (p.1 + d.1, p.2 + d.2) st.visited
      queue := st.queue ++ [((p.1 + d.1, p.2 + d.2), dist + 1)] }
  else st

/-- One popped queue entry is expanded into all eight directions. -/
def bfsExpand (rows cols : ℤ) (p : ℤ × ℤ) (dist : ℕ) (st : BfsState) : BfsState :=
  directions.foldl (bfsBody rows cols p dist) st

/-- The `while queue:` loop, with explicit fuel.  Each iteration pops the
front entry and expands it.  The fuel used by the top-level function is
large enough for the queue to drain (proved below), so the fuel is only a
termination device, not a semantic change. -/
def bfsLoop (rows cols : ℤ) : ℕ → BfsState → BfsState
  | 0, st => st
  | fuel + 1, st =>
    match st.queue with
    | [] => st
    | (p, dist) :: rest =>
      bfsLoop rows cols fuel (bfsExpand rows cols p dist { st with queue := rest })

/-- Source: `get_nearest_distance_to_police_stations_bfs`.  Runs the
initialisation and the queue loop and returns the final `distance_map`. -/
def get_nearest_distance_to_police_stations_bfs
    (rows cols : ℤ) (police_stations : List (ℤ × ℤ)) : ℤ × ℤ → ℕ :=
  (bfsLoop rows cols (police_stations.length + rows.toNat * cols.toNat)
    (bfsInit rows cols police_stations)).dmap

/-- Minimum Chebyshev distance from `c` to a non-empty list of stations
(the mathematical value all three strategies aim at); `0` on the empty
list, which is never used with a meaningful reading. -/
def minCheb (c : ℤ × ℤ) : List (ℤ × ℤ) → ℕ
  | [] => 0
  | s :: rest => rest.foldl (fun a t => min a (cheb c.1 c.2 t.1 t.2)) (cheb c.1 c.2 s.1 s.2)

/-- Minimum Chebyshev distance from `c` to the in-bounds stations: the
value the BFS distance field holds at every cell. -/
def nearestIB (rows cols : ℤ) (police_stations : List (ℤ × ℤ)) (c : ℤ × ℤ) : ℕ :=
  minCheb c (police_stations.filter (fun s => inBounds rows cols s))

theorem inBounds_iff {rows cols : ℤ} {c : ℤ × ℤ} :
    inBounds rows cols c = true ↔ 0 ≤ c.1 ∧ c.1 < rows ∧ 0 ≤ c.2 ∧ c.2 < cols := by
  simp [inBounds, and_assoc]

theorem cheb_self (i j : ℤ) : cheb i j i j = 0 := by
  simp [cheb]

theorem cheb_eq_zero {i j py px : ℤ} (h : cheb i j py px = 0) : i = py ∧ j = px := by
  simp only [cheb, Nat.max_eq_zero_iff] at h
  omega

/-! ### Generic fold lemmas -/

theorem foldl_min_le_init {α : Type} (f : α → ℕ) :
    ∀ (l : List α) (a : ℕ), l.foldl (fun x t => min x (f t)) a ≤ a := by
  intro l
  induction l with
  | nil => intro a; exact le_rfl
  | cons b l ih =>
    intro a
    exact le_trans (ih (min a (f b))) (min_le_left _ _)

theorem foldl_min_le_mem {α : Type} (f : α → ℕ) :
    ∀ (l : List α) (a : ℕ) (t : α), t ∈ l → l.foldl (fun x t => min x (f t)) a ≤ f t := by
  intro l
  induction l with
  | nil => intro a t ht; cases ht
  | cons b l ih =>
    intro a t ht
    rcases List.mem_cons.mp ht with h | h
    · subst h
      exact le_trans (foldl_min_le_init f l (min a (f t))) (min_le_right _ _)
    · exact ih (min a (f b)) t h

theorem le_foldl_min {α : Type} (f : α → ℕ) :
    ∀ (l : List α) (a k : ℕ), k ≤ a → (∀ t ∈ l, k ≤ f t) →
      k ≤ l.foldl (fun x t => min x (f t)) a := by
  intro l
  induction l with
  | nil => intro a k hk _; exact hk
  | cons b l ih =>
    intro a k hk h
    exact ih (min a (f b)) k (le_min hk (h b (List.mem_cons_self b l)))
      (fun t ht => h t (List.mem_cons_of_mem b ht))

theorem foldl_min_cases {α : Type} (f : α → ℕ) :
    ∀ (l : List α) (a : ℕ),
      l.foldl (fun x t => min x (f t)) a = a ∨
        ∃ t ∈ l, l.foldl (fun x t => min x (f t)) a = f t := by
  intro l
  induction l with
  | nil => intro a; exact Or.inl rfl
  | cons b l ih =>
    intro a
    rcases ih (min a (f b)) with h | ⟨t, ht, h⟩
    · rcases le_total a (f b) with hab | hab
      · refine Or.inl ?_
        simp only [List.foldl_cons]
        rw [h]
        exact min_eq_left hab
      · refine Or.inr ⟨b, List.mem_cons_self b l, ?_⟩
        simp only [List.foldl_cons]
        rw [h]
        exact min_eq_right hab
    · exact Or.inr ⟨t, List.mem_cons_of_mem b ht, h⟩

theorem init_le_foldl_max {α : Type} (f : α → ℕ) :
    ∀ (l : List α) (a : ℕ), a ≤ l.foldl (fun x t => max x (f t)) a := by
  intro l
  induction l with
  | nil => intro a; exact le_rfl
  | cons b l ih =>
    intro a
    exact le_trans (le_max_left _ _) (ih (max a (f b)))

theorem mem_le_foldl_max {α : Type} (f : α → ℕ) :
    ∀ (l : List α) (a : ℕ) (t : α), t ∈ l → f t ≤ l.foldl (fun x t => max x (f t)) a := by
  intro l
  induction l with
  | nil => intro a t ht; cases ht
  | cons b l ih =>
    intro a t ht
    rcases List.mem_cons.mp ht with h | h
    · subst h
      exact le_trans (le_max_right _ _) (init_le_foldl_max f l (max a (f t)))
    · exact ih (max a (f b)) t h

theorem foldl_max_cases {α : Type} (f : α → ℕ) :
    ∀ (l : List α) (a : ℕ),
      l.foldl (fun x t => max x (f t)) a = a ∨
        ∃ t ∈ l, l.foldl (fun x t => max x (f t)) a = f t := by
  intro l
  induction l with
  | nil => intro a; exact Or.inl rfl
  | cons b l ih =>
    intro a
    rcases ih (max a (f b)) with h | ⟨t, ht, h⟩
    · rcases le_total (f b) a with hab | hab
      · refine Or.inl ?_
        simp only [List.foldl_cons]
        rw [h]
        exact max_eq_left hab
      · refine Or.inr ⟨b, List.mem_cons_self b l, ?_⟩
        simp only [List.foldl_cons]
        rw [h]
        exact max_eq_right hab
    · exact Or.inr ⟨t, List.mem_cons_of_mem b ht, h⟩

theorem foldl_max_mono {α : Type} (f g : α → ℕ) :
    ∀ (l : List α) (a b : ℕ), a ≤ b → (∀ t ∈ l, f t ≤ g t) →
      l.foldl (fun x t => max x (f t)) a ≤ l.foldl (fun x t => max x (g t)) b := by
  intro l
  induction l with
  | nil => intro a b hab _; exact hab
  | cons c l ih =>
    intro a b hab h
    exact ih (max a (f c)) (max b (g c))
      (max_le_max hab (h c (List.mem_cons_self c l)))
      (fun t ht => h t (List.mem_cons_of_mem c ht))

theorem foldl_max_congr {α : Type} (f g : α → ℕ) :
    ∀ (l : List α) (a : ℕ), (∀ t ∈ l, f t = g t) →
      l.foldl (fun x t => max x (f t)) a = l.foldl (fun x t => max x (g t)) a := by
  intro l
  induction l with
  | nil => intro a _; rfl
  | cons c l ih =>
    intro a h
    rw [List.foldl_cons, List.foldl_cons, h c (List.mem_cons_self c l)]
    exact ih (max a (g c)) (fun t ht => h t (List.mem_cons_of_mem c ht))

/-! ### Lemmas about `minCheb` and the brute-force / KD-tree strategies -/

theorem minCheb_le_mem {c t : ℤ × ℤ} {l : List (ℤ × ℤ)} (ht : t ∈ l) :
    minCheb c l ≤ cheb c.1 c.2 t.1 t.2 := by
  cases l with
  | nil => cases ht
  | cons s rest =>
    rcases List.mem_cons.mp ht with h | h
    · subst h
      exact foldl_min_le_init _ rest _
    · exact foldl_min_le_mem _ rest _ t h

theorem minCheb_attained {c : ℤ × ℤ} {l : List (ℤ × ℤ)} (h : l ≠ []) :
    ∃ t ∈ l, minCheb c l = cheb c.1 c.2 t.1 t.2 := by
  cases l with
  | nil => exact absurd rfl h
  | cons s rest =>
    rcases foldl_min_cases (fun t => cheb c.1 c.2 t.1 t.2) rest (cheb c.1 c.2 s.1 s.2) with
      hc | ⟨t, ht, hc⟩
    · exact ⟨s, List.mem_cons_self s rest, hc⟩
    · exact ⟨t, List.mem_cons_of_mem s ht, hc⟩

theorem le_minCheb {c : ℤ × ℤ} {l : List (ℤ × ℤ)} {k : ℕ}
    (h : ∀ t ∈ l, k ≤ cheb c.1 c.2 t.1 t.2) : l ≠ [] → k ≤ minCheb c l := by
  intro hne
  cases l with
  | nil => exact absurd rfl hne
  | cons s rest =>
    exact le_foldl_min _ rest _ k (h s (List.mem_cons_self s rest))
      (fun t ht => h t (List.mem_cons_of_mem s ht))

theorem minCheb_anti {c : ℤ × ℤ} {l₁ l₂ : List (ℤ × ℤ)} (h₁ : l₁ ≠ [])
    (hsub : l₁ ⊆ l₂) : minCheb c l₂ ≤ minCheb c l₁ := by
  obtain ⟨t, ht, hval⟩ := minCheb_attained (c := c) h₁
  rw [hval]
  exact minCheb_le_mem (hsub ht)

theorem brutal_force_coe_fold (i j : ℤ) :
    ∀ (rest : List (ℤ × ℤ)) (a : ℕ),
      rest.foldl (fun d t => min d (WithTop.some (cheb i j t.1 t.2))) (WithTop.some a) =
        WithTop.some (rest.foldl (fun x t => min x (cheb i j t.1 t.2)) a) := by
  intro rest
  induction rest with
  | nil => intro a; rfl
  | cons t rest ih =>
    intro a
    simp only [List.foldl_cons]
    rw [← WithTop.coe_min, ih]

/-- On a non-empty station list the brute-force fold computes exactly the
minimum Chebyshev distance (and in particular never the initial infinity). -/
theorem brutal_force_eq_minCheb {i j : ℤ} {l : List (ℤ × ℤ)} (h : l ≠ []) :
    get_nearest_distance_to_police_stations_brutal_force i j l =
      WithTop.some (minCheb (i, j) l) := by
  cases l with
  | nil => exact absurd rfl h
  | cons s rest =>
    show (rest.foldl _ (min ⊤ (WithTop.some (cheb i j s.1 s.2)))) = _
    rw [min_eq_right le_top]
    exact brutal_force_coe_fold i j rest (cheb i j s.1 s.2)

/-- On a non-empty station list the KD-tree query returns exactly the
minimum Chebyshev distance. -/
theorem kd_tree_eq_minCheb {i j : ℤ} {l : List (ℤ × ℤ)} (h : l ≠ []) :
    get_nearest_distance_to_police_stations_kd_tree i j l = some (minCheb (i, j) l) := by
  cases l with
  | nil => exact absurd rfl h
  | cons s rest =>
    show ((s :: rest).map (fun t => cheb i j t.1 t.2)).min? = _
    rw [List.map_cons, List.min?_cons', List.foldl_map]
    rfl

/-! ### Geometry of the king-move neighbourhood -/

theorem directions_bound : ∀ d ∈ directions, d.1.natAbs ≤ 1 ∧ d.2.natAbs ≤ 1 := by
  decide

theorem neg_mem_directions : ∀ d ∈ directions, ((-d.1, -d.2) : ℤ × ℤ) ∈ directions := by
  decide

theorem mem_directions_of {a b : ℤ} (ha : a.natAbs ≤ 1) (hb : b.natAbs ≤ 1)
    (hne : ¬(a = 0 ∧ b = 0)) : (a, b) ∈ directions := by
  have ha' : a = -1 ∨ a = 0 ∨ a = 1 := by omega
  have hb' : b = -1 ∨ b = 0 ∨ b = 1 := by omega
  rcases ha' with rfl | rfl | rfl <;> rcases hb' with rfl | rfl | rfl <;>
    first
      | decide
      | exact absurd ⟨rfl, rfl⟩ hne

theorem natAbs_sub_sign (t : ℤ) : (t - t.sign).natAbs = t.natAbs - 1 := by
  rcases lt_trichotomy t 0 with h | h | h
  · rw [Int.sign_eq_neg_one_of_neg h]; omega
  · subst h; rfl
  · rw [Int.sign_eq_one_of_pos h]; omega

theorem sign_natAbs_le (t : ℤ) : t.sign.natAbs ≤ 1 := by
  rcases lt_trichotomy t 0 with h | h | h
  · rw [Int.sign_eq_neg_one_of_neg h]; rfl
  · subst h; simp
  · rw [Int.sign_eq_one_of_pos h]; rfl

theorem cheb_lipschitz {i j py px di dj : ℤ} (hdi : di.natAbs ≤ 1) (hdj : dj.natAbs ≤ 1) :
    cheb (i + di) (j + dj) py px ≤ cheb i j py px + 1 := by
  have h1 : ((i + di) - py).natAbs ≤ (i - py).natAbs + 1 := by omega
  have h2 : ((j + dj) - px).natAbs ≤ (j - px).natAbs + 1 := by omega
  unfold cheb
  omega

/-- One king step of the cell towards the station, by the sign of each
coordinate difference, lowers the Chebyshev distance by exactly one. -/
theorem cheb_step {i j py px : ℤ} :
    cheb (i + (py - i).sign) (j + (px - j).sign) py px = cheb i j py px - 1 := by
  have h1 : ((i + (py - i).sign) - py) = -((py - i) - (py - i).sign) := by ring
  have h2 : ((j + (px - j).sign) - px) = -((px - j) - (px - j).sign) := by ring
  have h3 := natAbs_sub_sign (py - i)
  have h4 := natAbs_sub_sign (px - j)
  unfold cheb
  rw [h1, h2, Int.natAbs_neg, Int.natAbs_neg, h3, h4]
  have h5 : (py - i).natAbs = (i - py).natAbs := by omega
  have h6 : (px - j).natAbs = (j - px).natAbs := by omega
  omega

/-- Moving by one king step changes the nearest-station distance by at
most one (upper direction used by both BFS invariants). -/
theorem minCheb_lipschitz {l : List (ℤ × ℤ)} (hne : l ≠ []) (c d : ℤ × ℤ)
    (hd1 : d.1.natAbs ≤ 1) (hd2 : d.2.natAbs ≤ 1) :
    minCheb (c.1 + d.1, c.2 + d.2) l ≤ minCheb c l + 1 := by
  obtain ⟨t, ht, hval⟩ := minCheb_attained (c := c) hne
  have h1 : minCheb (c.1 + d.1, c.2 + d.2) l ≤ cheb (c.1 + d.1) (c.2 + d.2) t.1 t.2 :=
    minCheb_le_mem ht
  have h2 : cheb (c.1 + d.1) (c.2 + d.2) t.1 t.2 ≤ cheb c.1 c.2 t.1 t.2 + 1 :=
    cheb_lipschitz hd1 hd2
  omega

theorem coord_step_inBounds {r c s : ℤ} (hc0 : 0 ≤ c) (hcr : c < r) (hs0 : 0 ≤ s)
    (hsr : s < r) : 0 ≤ c + (s - c).sign ∧ c + (s - c).sign < r := by
  rcases lt_trichotomy (s - c) 0 with h | h | h
  · rw [Int.sign_eq_neg_one_of_neg h]; omega
  · rw [h]; simp; omega
  · rw [Int.sign_eq_one_of_pos h]; omega

/-- If an in-bounds cell is at distance `k + 1` from the nearest in-bounds
station, some in-bounds king-move neighbour is at distance exactly `k`. -/
theorem nearestIB_step {rows cols : ℤ} {S : List (ℤ × ℤ)} {c : ℤ × ℤ} {k : ℕ}
    (hS : S.filter (fun s => inBounds rows cols s) ≠ [])
    (hc : inBounds rows cols c = true)
    (h : nearestIB rows cols S c = k + 1) :
    ∃ d ∈ directions, inBounds rows cols (c.1 + d.1, c.2 + d.2) = true ∧
      nearestIB rows cols S (c.1 + d.1, c.2 + d.2) = k := by
  obtain ⟨s, hs, hval⟩ := minCheb_attained (c := c) hS
  have hsmem := List.mem_filter.mp hs
  have hsb : 0 ≤ s.1 ∧ s.1 < rows ∧ 0 ≤ s.2 ∧ s.2 < cols := inBounds_iff.mp hsmem.2
  have hcb : 0 ≤ c.1 ∧ c.1 < rows ∧ 0 ≤ c.2 ∧ c.2 < cols := inBounds_iff.mp hc
  have hchk : cheb c.1 c.2 s.1 s.2 = k + 1 := by
    rw [nearestIB] at h; omega
  have hne0 : ¬((s.1 - c.1).sign = 0 ∧ (s.2 - c.2).sign = 0) := by
    rintro ⟨h1, h2⟩
    have h1' : s.1 - c.1 = 0 := Int.sign_eq_zero_iff_zero.mp h1
    have h2' : s.2 - c.2 = 0 := Int.sign_eq_zero_iff_zero.mp h2
    have : cheb c.1 c.2 s.1 s.2 = 0 := by unfold cheb; omega
    omega
  refine ⟨((s.1 - c.1).sign, (s.2 - c.2).sign),
    mem_directions_of (sign_natAbs_le _) (sign_natAbs_le _) hne0, ?_, ?_⟩
  · refine inBounds_iff.mpr ?_
    have hrow := coord_step_inBounds hcb.1 hcb.2.1 hsb.1 hsb.2.1
    have hcol := coord_step_inBounds hcb.2.2.1 hcb.2.2.2 hsb.2.2.1 hsb.2.2.2
    exact ⟨hrow.1, hrow.2, hcol.1, hcol.2⟩
  · -- the stepped cell is at distance exactly k from the nearest station
    dsimp only
    have hdown : cheb (c.1 + (s.1 - c.1).sign) (c.2 + (s.2 - c.2).sign) s.1 s.2 = k := by
      rw [cheb_step, hchk]
      omega
    have hup : minCheb (c.1 + (s.1 - c.1).sign, c.2 + (s.2 - c.2).sign)
        (S.filter (fun s => inBounds rows cols s)) ≤ k := by
      have := minCheb_le_mem
        (c := (c.1 + (s.1 - c.1).sign, c.2 + (s.2 - c.2).sign)) hs
      simpa [hdown] using this
    have hlow : minCheb c (S.filter (fun s => inBounds rows cols s)) ≤
        minCheb (c.1 + (s.1 - c.1).sign, c.2 + (s.2 - c.2).sign)
          (S.filter (fun s => inBounds rows cols s)) + 1 := by
      have hstep := minCheb_lipschitz hS
        ((c.1 + (s.1 - c.1).sign, c.2 + (s.2 - c.2).sign))
        ((-(s.1 - c.1).sign, -(s.2 - c.2).sign))
        (by simpa using sign_natAbs_le (s.1 - c.1))
        (by simpa using sign_natAbs_le (s.2 - c.2))
      have harg : ((c.1 + (s.1 - c.1).sign) + -(s.1 - c.1).sign,
          (c.2 + (s.2 - c.2).sign) + -(s.2 - c.2).sign) = c := by
        ext <;> simp
      rw [harg] at hstep
      exact hstep
    rw [nearestIB] at h ⊢
    omega

/-! ### The grid as a finite set of cells -/

/-- The in-bounds cells as a `Finset`, used to bound the visited set. -/
def cellBox (rows cols : ℤ) : Finset (ℤ × ℤ) :=
  (Finset.range rows.toNat ×ˢ Finset.range cols.toNat).image
    (fun p => ((p.1 : ℤ), (p.2 : ℤ)))

theorem cellBox_card (rows cols : ℤ) :
    (cellBox rows cols).card = rows.toNat * cols.toNat := by
  have hinj : Function.Injective (fun p : ℕ × ℕ => ((p.1 : ℤ), (p.2 : ℤ))) := by
    intro a b hab
    have h1 := congrArg Prod.fst hab
    have h2 := congrArg Prod.snd hab
    simp only [Nat.cast_inj] at h1 h2
    exact Prod.ext h1 h2
  rw [cellBox, Finset.card_image_of_injective _ hinj, Finset.card_product,
    Finset.card_range, Finset.card_range]

theorem mem_cellBox {rows cols : ℤ} {c : ℤ × ℤ} (h : inBounds rows cols c = true) :
    c ∈ cellBox rows cols := by
  obtain ⟨h1, h2, h3, h4⟩ := inBounds_iff.mp h
  refine Finset.mem_image.mpr ⟨(c.1.toNat, c.2.toNat), ?_, ?_⟩
  · rw [Finset.mem_product]
    constructor <;> (rw [Finset.mem_range]; omega)
  · apply Prod.ext <;> dsimp <;> omega

theorem mem_cellsOf {rows cols : ℤ} {c : ℤ × ℤ} :
    c ∈ cellsOf rows cols ↔ inBounds rows cols c = true := by
  constructor
  · intro hmem
    obtain ⟨i, hi, hmem2⟩ := List.mem_flatMap.mp hmem
    obtain ⟨j, hj, hc⟩ := List.mem_map.mp hmem2
    rw [List.mem_range] at hi hj
    rw [inBounds_iff, ← hc]
    dsimp
    omega
  · intro h
    obtain ⟨h1, h2, h3, h4⟩ := inBounds_iff.mp h
    refine List.mem_flatMap.mpr ⟨c.1.toNat, ?_, List.mem_map.mpr ⟨c.2.toNat, ?_, ?_⟩⟩
    · rw [List.mem_range]; omega
    · rw [List.mem_range]; omega
    · apply Prod.ext <;> dsimp <;> omega

theorem cellsOf_eq_nil {rows cols : ℤ} (h : rows ≤ 0 ∨ cols ≤ 0) :
    cellsOf rows cols = [] := by
  refine List.eq_nil_iff_forall_not_mem.mpr (fun c hc => ?_)
  have := inBounds_iff.mp (mem_cellsOf.mp hc)
  omega

theorem zero_mem_cellsOf {rows cols : ℤ} (hr : 0 < rows) (hc : 0 < cols) :
    ((0 : ℤ), (0 : ℤ)) ∈ cellsOf rows cols := by
  refine mem_cellsOf.mpr (inBounds_iff.mpr ?_)
  refine ⟨le_rfl, hr, le_rfl, hc⟩

/-! ### The radius solver -/

theorem foldlM_map_none {l : List (ℤ × ℤ)} {b : ℕ}
    (f : ℕ → ℤ × ℤ → Option ℕ) (hf : ∀ a c, f a c = none) (hne : l ≠ []) :
    l.foldlM f b = none := by
  cases l with
  | nil => exact absurd rfl hne
  | cons c rest =>
    rw [List.foldlM_cons, hf b c]
    rfl

theorem foldlM_max_some {S : List (ℤ × ℤ)} (hne : S ≠ []) :
    ∀ (l : List (ℤ × ℤ)) (b : ℕ),
      l.foldlM
        (fun a c =>
          (get_nearest_distance_to_police_stations_kd_tree c.1 c.2 S).map
            (fun d => max a d)) b =
        some (l.foldl (fun a c => max a (minCheb c S)) b) := by
  intro l
  induction l with
  | nil => intro b; rfl
  | cons c rest ih =>
    intro b
    rw [List.foldlM_cons, kd_tree_eq_minCheb hne]
    simpa using ih (max b (minCheb c S))

/-- On a non-empty station list the radius solver returns the `max`-fold of
the per-cell minimum Chebyshev distance over all grid cells. -/
theorem solver_eq_some {rows cols : ℤ} {S : List (ℤ × ℤ)} (hne : S ≠ []) :
    get_largest_nearest_distance_to_police_stations rows cols S =
      some ((cellsOf rows cols).foldl (fun a c => max a (minCheb c S)) 0) :=
  foldlM_max_some hne (cellsOf rows cols) 0

/-- With a degenerate grid the cell loops never run and the solver returns
`0` with no error at all. -/
theorem solver_degenerate {rows cols : ℤ} (S : List (ℤ × ℤ)) (h : rows ≤ 0 ∨ cols ≤ 0) :
    get_largest_nearest_distance_to_police_stations rows cols S = some 0 := by
  rw [get_largest_nearest_distance_to_police_stations, cellsOf_eq_nil h]
  rfl

/-- With an empty station list and a real grid, the first per-cell KD-tree
query fails (scipy raises on an empty tree) and the whole computation
aborts inside the loop. -/
theorem solver_empty_stations {rows cols : ℤ} (hr : 0 < rows) (hc : 0 < cols) :
    get_largest_nearest_distance_to_police_stations rows cols [] = none := by
  refine foldlM_map_none _ (fun a c => rfl)
    (List.ne_nil_of_mem (zero_mem_cellsOf hr hc))

/-! ### Characterisation of the BFS initialisation -/

theorem bfsInit_char (rows cols : ℤ) :
    ∀ (S : List (ℤ × ℤ)) (st : BfsState),
      (S.foldl (bfsInitStep rows cols) st).queue =
          st.queue ++ (S.filter (fun s => inBounds rows cols s)).map (fun s => (s, 0)) ∧
        (S.foldl (bfsInitStep rows cols) st).visited =
          st.visited ∪ (S.filter (fun s => inBounds rows cols s)).toFinset ∧
        ∀ c, (S.foldl (bfsInitStep rows cols) st).dmap c =
          if c ∈ S.filter (fun s => inBounds rows cols s) then 0 else st.dmap c := by
  intro S
  induction S with
  | nil =>
    intro st
    refine ⟨by simp, by simp, fun c => by simp⟩
  | cons s S ih =>
    intro st
    rw [List.foldl_cons]
    obtain ⟨ihq, ihv, ihd⟩ := ih (bfsInitStep rows cols st s)
    cases hsb : inBounds rows cols s with
    | true =>
      have hstep : bfsInitStep rows cols st s =
          { dmap := fun c => if c = s then 0 else st.dmap c
            visited := insert s st.visited
            queue := st.queue ++ [(s, 0)] } := by
        rw [bfsInitStep, if_pos hsb]
      have hfil : (s :: S).filter (fun s => inBounds rows cols s) =
          s :: S.filter (fun s => inBounds rows cols s) := by
        rw [List.filter_cons_of_pos hsb]
      refine ⟨?_, ?_, ?_⟩
      · rw [ihq, hstep, hfil]
        simp [List.append_assoc]
      · rw [ihv, hstep, hfil]
        simp [Finset.insert_union]
      · intro c
        rw [ihd, hstep, hfil]
        by_cases hcs : c = s
        · subst hcs
          by_cases hmem : c ∈ S.filter (fun s => inBounds rows cols s) <;>
            simp [hmem]
        · by_cases hmem : c ∈ S.filter (fun s => inBounds rows cols s) <;>
            simp [hmem, hcs]
    | false =>
      have hstep : bfsInitStep rows cols st s = st := by
        rw [bfsInitStep, if_neg (by simp [hsb])]
      have hfil : (s :: S).filter (fun s => inBounds rows cols s) =
          S.filter (fun s => inBounds rows cols s) := by
        rw [List.filter_cons_of_neg (by simp [hsb])]
      rw [hstep] at ihq ihv ihd
      rw [hstep, hfil]
      exact ⟨ihq, ihv, ihd⟩

theorem bfsInit_queue (rows cols : ℤ) (S : List (ℤ × ℤ)) :
    (bfsInit rows cols S).queue =
      (S.filter (fun s => inBounds rows cols s)).map (fun s => (s, 0)) := by
  have h := (bfsInit_char rows cols S { dmap := fun _ => 0, visited := ∅, queue := [] }).1
  simpa [bfsInit] using h

theorem bfsInit_visited (rows cols : ℤ) (S : List (ℤ × ℤ)) :
    (bfsInit rows cols S).visited =
      (S.filter (fun s => inBounds rows cols s)).toFinset := by
  have h := (bfsInit_char rows cols S { dmap := fun _ => 0, visited := ∅, queue := [] }).2.1
  simpa [bfsInit] using h

theorem bfsInit_dmap (rows cols : ℤ) (S : List (ℤ × ℤ)) (c : ℤ × ℤ) :
    (bfsInit rows cols S).dmap c = 0 := by
  have h := (bfsInit_char rows cols S { dmap := fun _ => 0, visited := ∅, queue := [] }).2.2 c
  simp only [bfsInit]
  rw [h]
  split <;> rfl

/-! ### Characterisation of one expansion step of the BFS -/

/-- Folding the loop body over a direction list appends some list `news` of
fresh cells to the queue (each with distance `dist + 1`), inserts exactly
those cells into the visited set, writes `dist + 1` into the map at exactly
those cells, and visits every in-bounds neighbour of `p`. -/
theorem bfsExpand_char (rows cols : ℤ) (p : ℤ × ℤ) (dist : ℕ) :
    ∀ (ds : List (ℤ × ℤ)) (st : BfsState), ∃ news : List (ℤ × ℤ),
      (ds.foldl (bfsBody rows cols p dist) st).queue =
          st.queue ++ news.map (fun n => (n, dist + 1)) ∧
        (ds.foldl (bfsBody rows cols p dist) st).visited = st.visited ∪ news.toFinset ∧
        (∀ c, c ∉ news → (ds.foldl (bfsBody rows cols p dist) st).dmap c = st.dmap c) ∧
        (∀ c ∈ news, (ds.foldl (bfsBody rows cols p dist) st).dmap c = dist + 1) ∧
        news.Nodup ∧
        (∀ n ∈ news, inBounds rows cols n = true ∧ n ∉ st.visited ∧
          ∃ d ∈ ds, n = (p.1 + d.1, p.2 + d.2)) ∧
        (∀ d ∈ ds, inBounds rows cols (p.1 + d.1, p.2 + d.2) = true →
          (p.1 + d.1, p.2 + d.2) ∈ (ds.foldl (bfsBody rows cols p dist) st).visited) ∧
        (ds.foldl (bfsBody rows cols p dist) st).visited.card =
          st.visited.card + news.length := by
  intro ds
  induction ds with
  | nil =>
    intro st
    refine ⟨[], by simp, by simp, ?_, ?_, List.nodup_nil, ?_, ?_, by simp⟩
    · intro c _
      rfl
    · intro c hc
      cases hc
    · intro n hn
      cases hn
    · intro d hd
      cases hd
  | cons d ds ih =>
    intro st
    rw [List.foldl_cons]
    by_cases hcond : inBounds rows cols (p.1 + d.1, p.2 + d.2) = true ∧
        (p.1 + d.1, p.2 + d.2) ∉ st.visited
    · have hstep : bfsBody rows cols p dist st d =
          { dmap := fun c => if c = (p.1 + d.1, p.2 + d.2) then dist + 1 else st.dmap c
            visited := insert (p.1 + d.1, p.2 + d.2) st.visited
            queue := st.queue ++ [((p.1 + d.1, p.2 + d.2), dist + 1)] } := by
        rw [bfsBody, if_pos hcond]
      obtain ⟨news, hq, hv, hdout, hdin, hnd, hprop, hcomp, hcard⟩ :=
        ih (bfsBody rows cols p dist st d)
      have hnews_st' : ∀ n ∈ news, n ∉ (bfsBody rows cols p dist st d).visited :=
        fun n hn => ((hprop n hn).2.1)
      refine ⟨(p.1 + d.1, p.2 + d.2) :: news, ?_, ?_, ?_, ?_, ?_, ?_, ?_, ?_⟩
      · rw [hq, hstep]
        simp only [List.map_cons, List.append_assoc, List.singleton_append]
      · rw [hv, hstep]
        simp only [List.toFinset_cons, Finset.insert_union, Finset.union_insert]
      · intro c hc
        rw [List.mem_cons] at hc
        push_neg at hc
        rw [hdout c hc.2, hstep]
        dsimp
        rw [if_neg hc.1]
      · intro c hc
        rcases List.mem_cons.mp hc with hceq | hc'
        · by_cases hn' : c ∈ news
          · exact hdin c hn'
          · rw [hdout c hn', hstep]
            dsimp
            rw [if_pos hceq]
        · exact hdin c hc'
      · refine List.nodup_cons.mpr ⟨?_, hnd⟩
        intro hmem
        have := hnews_st' _ hmem
        rw [hstep] at this
        exact this (Finset.mem_insert_self _ _)
      · intro n hn
        rcases List.mem_cons.mp hn with rfl | hn'
        · exact ⟨hcond.1, hcond.2, ⟨d, List.mem_cons_self d ds, rfl⟩⟩
        · obtain ⟨hb, hnv, d', hd', he⟩ := hprop n hn'
          rw [hstep] at hnv
          refine ⟨hb, fun hmem => hnv (Finset.mem_insert_of_mem hmem),
            ⟨d', List.mem_cons_of_mem d hd', he⟩⟩
      · intro d' hd' hb
        rcases List.mem_cons.mp hd' with rfl | hd''
        · rw [hv, hstep]
          exact Finset.mem_union_left _ (Finset.mem_insert_self _ _)
        · exact hcomp d' hd'' hb
      · rw [hcard, hstep]
        dsimp
        rw [Finset.card_insert_of_not_mem hcond.2]
        try simp only [List.length_cons]
        omega
    · have hstep : bfsBody rows cols p dist st d = st := by
        rw [bfsBody, if_neg hcond]
      rw [hstep]
      obtain ⟨news, hq, hv, hdout, hdin, hnd, hprop, hcomp, hcard⟩ := ih st
      refine ⟨news, hq, hv, hdout, hdin, hnd, ?_, ?_, hcard⟩
      · intro n hn
        obtain ⟨hb, hnv, d', hd', he⟩ := hprop n hn
        exact ⟨hb, hnv, ⟨d', List.mem_cons_of_mem d hd', he⟩⟩
      · intro d' hd' hb
        rcases List.mem_cons.mp hd' with rfl | hd''
        · have hvis : (p.1 + d'.1, p.2 + d'.2) ∈ st.visited := by
            by_contra hnv
            exact hcond ⟨hb, hnv⟩
          rw [hv]
          exact Finset.mem_union_left _ hvis
        · exact hcomp d' hd'' hb

/-! ### The BFS loop invariant -/

/-- Invariant of the BFS loop.  `nearestIB rows cols S` is the true
distance field (minimum Chebyshev distance to an in-bounds station):
visited cells are in bounds and carry the true distance; in-bounds
stations are visited; queue entries are visited cells carrying their true
distance; a visited cell with an unvisited in-bounds neighbour is still
queued; the queue consists of a block of entries at some distance `D`
followed by a block at `D + 1`; and unvisited cells are strictly farther
than the queue front. -/
structure Inv (rows cols : ℤ) (S : List (ℤ × ℤ)) (st : BfsState) : Prop where
  vb : ∀ v ∈ st.visited, inBounds rows cols v = true
  vd : ∀ v ∈ st.visited, st.dmap v = nearestIB rows cols S v
  sv : ∀ s ∈ S, inBounds rows cols s = true → s ∈ st.visited
  qv : ∀ e ∈ st.queue, e.1 ∈ st.visited ∧ nearestIB rows cols S e.1 = e.2
  close : ∀ v ∈ st.visited, ∀ d ∈ directions,
    inBounds rows cols (v.1 + d.1, v.2 + d.2) = true →
    (v.1 + d.1, v.2 + d.2) ∉ st.visited → ∃ e ∈ st.queue, e.1 = v
  layer : st.queue = [] ∨ ∃ D q1 q2, st.queue = q1 ++ q2 ∧ q1 ≠ [] ∧
    (∀ e ∈ q1, e.2 = D) ∧ (∀ e ∈ q2, e.2 = D + 1)
  unv : ∀ c : ℤ × ℤ, inBounds rows cols c = true → c ∉ st.visited →
    ∀ p dq, st.queue.head? = some (p, dq) → dq + 1 ≤ nearestIB rows cols S c

theorem nearestIB_self {rows cols : ℤ} {S : List (ℤ × ℤ)} {v : ℤ × ℤ}
    (hv : v ∈ S.filter (fun s => inBounds rows cols s)) :
    nearestIB rows cols S v = 0 := by
  have h := minCheb_le_mem (c := v) hv
  rw [cheb_self] at h
  rw [nearestIB]
  omega

theorem nearestIB_zero {rows cols : ℤ} {S : List (ℤ × ℤ)} {c : ℤ × ℤ}
    (hS : S.filter (fun s => inBounds rows cols s) ≠ [])
    (h : nearestIB rows cols S c = 0) :
    c ∈ S.filter (fun s => inBounds rows cols s) := by
  obtain ⟨t, ht, hval⟩ := minCheb_attained (c := c) hS
  rw [nearestIB] at h
  rw [h] at hval
  obtain ⟨h1, h2⟩ := cheb_eq_zero hval.symm
  have : c = t := Prod.ext h1 h2
  rw [this]
  exact ht

theorem inv_init (rows cols : ℤ) (S : List (ℤ × ℤ)) :
    Inv rows cols S (bfsInit rows cols S) := by
  have hq := bfsInit_queue rows cols S
  have hv := bfsInit_visited rows cols S
  have hd := bfsInit_dmap rows cols S
  constructor
  · intro v hvm
    rw [hv, List.mem_toFinset] at hvm
    exact (List.mem_filter.mp hvm).2
  · intro v hvm
    rw [hv, List.mem_toFinset] at hvm
    rw [hd v, nearestIB_self hvm]
  · intro s hs hib
    rw [hv, List.mem_toFinset]
    exact List.mem_filter.mpr ⟨hs, hib⟩
  · intro e he
    rw [hq] at he
    obtain ⟨s, hs, rfl⟩ := List.mem_map.mp he
    constructor
    · rw [hv, List.mem_toFinset]
      exact hs
    · exact nearestIB_self hs
  · intro v hvm d _ _ _
    rw [hv, List.mem_toFinset] at hvm
    refine ⟨(v, 0), ?_, rfl⟩
    rw [hq]
    exact List.mem_map.mpr ⟨v, hvm, rfl⟩
  · cases hfil : S.filter (fun s => inBounds rows cols s) with
    | nil =>
      left
      rw [hq, hfil]
      rfl
    | cons s F =>
      right
      refine ⟨0, (bfsInit rows cols S).queue, [], (List.append_nil _).symm, ?_, ?_, ?_⟩
      · rw [hq, hfil]
        simp
      · intro e he
        rw [hq] at he
        obtain ⟨t, _, rfl⟩ := List.mem_map.mp he
        rfl
      · intro e he
        cases he
  · intro c hcb hcnv p dq hhead
    have hmem := List.mem_of_mem_head? hhead
    rw [hq] at hmem
    obtain ⟨s, hs, hsq⟩ := List.mem_map.mp hmem
    have hdq : dq = 0 := by
      have := congrArg Prod.snd hsq
      simpa using this.symm
    subst hdq
    have hSne : S.filter (fun s => inBounds rows cols s) ≠ [] :=
      List.ne_nil_of_mem hs
    by_contra hlt
    have hz : nearestIB rows cols S c = 0 := by omega
    have := nearestIB_zero hSne hz
    apply hcnv
    rw [hv, List.mem_toFinset]
    exact this

/-- The invariant is preserved when the front queue entry is popped and
expanded. -/
theorem inv_step {rows cols : ℤ} {S : List (ℤ × ℤ)}
    (hS : S.filter (fun s => inBounds rows cols s) ≠ [])
    {st : BfsState} (hInv : Inv rows cols S st)
    {p : ℤ × ℤ} {dq : ℕ} {rest : List ((ℤ × ℤ) × ℕ)}
    (hq : st.queue = (p, dq) :: rest) :
    Inv rows cols S (bfsExpand rows cols p dq { st with queue := rest }) := by
  rcases hInv.layer with hnil | ⟨D, q1, q2, hdec, hq1ne, hq1D, hq2D⟩
  · rw [hq] at hnil
    cases hnil
  cases q1 with
  | nil => exact absurd rfl hq1ne
  | cons e1 q1t =>
  rw [List.cons_append, hq] at hdec
  injection hdec with h1 h2
  have hD : D = dq := by
    have he1 := hq1D e1 (List.mem_cons_self e1 q1t)
    rw [← h1] at he1
    exact he1.symm
  rw [hD] at hq1D hq2D
  have hq1tD : ∀ e ∈ q1t, e.2 = dq := fun e he => hq1D e (List.mem_cons_of_mem e1 he)
  unfold bfsExpand
  obtain ⟨news, hq', hv', hdout, hdin, hnd, hprop, hcomp, hcard⟩ :=
    bfsExpand_char rows cols p dq directions { st with queue := rest }
  dsimp only at hq' hv' hdout hdin hprop hcomp hcard
  have hNp : nearestIB rows cols S p = dq :=
    (hInv.qv (p, dq) (by rw [hq]; exact List.mem_cons_self _ _)).2
  have hhead : st.queue.head? = some (p, dq) := by rw [hq]; rfl
  have hnewdist : ∀ n ∈ news, nearestIB rows cols S n = dq + 1 := by
    intro n hn
    obtain ⟨hb, hnv, d, hd, he⟩ := hprop n hn
    have hbounds := directions_bound d hd
    have hupper : nearestIB rows cols S n ≤ dq + 1 := by
      rw [he, nearestIB, ← hNp, nearestIB]
      exact minCheb_lipschitz hS p d hbounds.1 hbounds.2
    have hlower : dq + 1 ≤ nearestIB rows cols S n := hInv.unv n hb hnv p dq hhead
    omega
  refine ⟨?_, ?_, ?_, ?_, ?_, ?_, ?_⟩
  · -- vb
    intro v hvm
    rw [hv'] at hvm
    rcases Finset.mem_union.mp hvm with h | h
    · exact hInv.vb v h
    · exact (hprop v (List.mem_toFinset.mp h)).1
  · -- vd
    intro v hvm
    rw [hv'] at hvm
    rcases Finset.mem_union.mp hvm with h | h
    · have hvnews : v ∉ news := fun hm => (hprop v hm).2.1 h
      rw [hdout v hvnews]
      exact hInv.vd v h
    · rw [hdin v (List.mem_toFinset.mp h), hnewdist v (List.mem_toFinset.mp h)]
  · -- sv
    intro s hs hib
    rw [hv']
    exact Finset.mem_union_left _ (hInv.sv s hs hib)
  · -- qv
    intro e he
    rw [hq'] at he
    rcases List.mem_append.mp he with h | h
    · have hestq : e ∈ st.queue := by rw [hq]; exact List.mem_cons_of_mem _ h
      obtain ⟨hev, hed⟩ := hInv.qv e hestq
      exact ⟨by rw [hv']; exact Finset.mem_union_left _ hev, hed⟩
    · obtain ⟨n, hn, rfl⟩ := List.mem_map.mp h
      refine ⟨?_, hnewdist n hn⟩
      rw [hv']
      exact Finset.mem_union_right _ (List.mem_toFinset.mpr hn)
  · -- close
    intro v hvm d hd hb hnvm
    rw [hv'] at hvm
    have hnb : (v.1 + d.1, v.2 + d.2) ∉ st.visited := by
      intro hmem
      apply hnvm
      rw [hv']
      exact Finset.mem_union_left _ hmem
    rcases Finset.mem_union.mp hvm with h | h
    · by_cases hvp : v = p
      · subst hvp
        exact absurd (hcomp d hd hb) hnvm
      · obtain ⟨e, he, he1⟩ := hInv.close v h d hd hb hnb
        rw [hq] at he
        rcases List.mem_cons.mp he with heq | he'
        · exfalso
          apply hvp
          rw [heq] at he1
          exact he1.symm
        · exact ⟨e, by rw [hq']; exact List.mem_append_left _ he', he1⟩
    · refine ⟨(v, dq + 1), ?_, rfl⟩
      rw [hq']
      exact List.mem_append_right _
        (List.mem_map.mpr ⟨v, List.mem_toFinset.mp h, rfl⟩)
  · -- layer
    rw [hq', h2]
    cases q1t with
    | nil =>
      simp only [List.nil_append]
      by_cases hne : q2 ++ news.map (fun n => (n, dq + 1)) = []
      · exact Or.inl hne
      · right
        refine ⟨dq + 1, q2 ++ news.map (fun n => (n, dq + 1)), [],
          (List.append_nil _).symm, hne, ?_, ?_⟩
        · intro e he
          rcases List.mem_append.mp he with h | h
          · exact hq2D e h
          · obtain ⟨n, _, rfl⟩ := List.mem_map.mp h
            rfl
        · intro e he
          cases he
    | cons f q1t' =>
      right
      refine ⟨dq, f :: q1t', q2 ++ news.map (fun n => (n, dq + 1)), ?_,
        List.cons_ne_nil f q1t', hq1tD, ?_⟩
      · simp [List.append_assoc]
      · intro e he
        rcases List.mem_append.mp he with h | h
        · exact hq2D e h
        · obtain ⟨n, _, rfl⟩ := List.mem_map.mp h
          rfl
  · -- unv
    intro c hcb hcnv p₂ dq₂ hhead₂
    have hcnv_st : c ∉ st.visited := by
      intro hm
      apply hcnv
      rw [hv']
      exact Finset.mem_union_left _ hm
    have hold : dq + 1 ≤ nearestIB rows cols S c := hInv.unv c hcb hcnv_st p dq hhead
    rw [hq', h2] at hhead₂
    cases q1t with
    | cons f q1t' =>
      have hf : f.2 = dq := hq1tD f (List.mem_cons_self _ _)
      rw [List.cons_append, List.cons_append, List.head?_cons] at hhead₂
      have hfe : f = (p₂, dq₂) := Option.some.inj hhead₂
      have hdq₂ : dq₂ = dq := by
        have := congrArg Prod.snd hfe
        dsimp at this
        omega
      omega
    | nil =>
      have hmem₂ := List.mem_of_mem_head? hhead₂
      simp only [List.nil_append] at hmem₂
      have hdq₂ : dq₂ = dq + 1 := by
        rcases List.mem_append.mp hmem₂ with h | h
        · exact hq2D _ h
        · obtain ⟨n, _, he⟩ := List.mem_map.mp h
          have := congrArg Prod.snd he
          dsimp at this
          omega
      subst hdq₂
      by_contra hlt
      have hNc : nearestIB rows cols S c = dq + 1 := by omega
      obtain ⟨d, hd, hb', hN'⟩ := nearestIB_step hS hcb hNc
      have hcvis : (c.1 + d.1, c.2 + d.2) ∈ st.visited := by
        by_contra hnv
        have := hInv.unv _ hb' hnv p dq hhead
        omega
      have hcc : ((c.1 + d.1) + (-d.1, -d.2).1, (c.2 + d.2) + (-d.1, -d.2).2) = c := by
        apply Prod.ext <;> dsimp <;> ring
      obtain ⟨e, he, he1⟩ := hInv.close _ hcvis (-d.1, -d.2) (neg_mem_directions d hd)
        (by rw [hcc]; exact hcb) (by rw [hcc]; exact hcnv_st)
      rw [hq] at he
      rcases List.mem_cons.mp he with heq | he'
      · -- the queued witness is the popped entry itself: its expansion visited `c`
        have hcp : (c.1 + d.1, c.2 + d.2) = p := by
          rw [heq] at he1
          exact he1.symm
        have hp1 : p.1 = c.1 + d.1 := (congrArg Prod.fst hcp).symm
        have hp2 : p.2 = c.2 + d.2 := (congrArg Prod.snd hcp).symm
        have hfinal : (p.1 + (-d.1, -d.2).1, p.2 + (-d.1, -d.2).2) = c := by
          rw [hp1, hp2]
          exact hcc
        have hmem := hcomp (-d.1, -d.2) (neg_mem_directions d hd)
          (by rw [hfinal]; exact hcb)
        rw [hfinal] at hmem
        exact absurd hmem hcnv
      · -- the queued witness lies in the `dq + 1` block: contradiction on distances
        have he2 : e ∈ q2 := by
          rw [h2] at he'
          simpa using he'
        have hed : e.2 = dq + 1 := hq2D e he2
        have hqve := hInv.qv e (by rw [hq]; exact List.mem_cons_of_mem _ he')
        rw [he1] at hqve
        have := hqve.2
        omega

/-! ### Running the loop to completion -/

theorem bfsLoop_empty {rows cols : ℤ} {st : BfsState} (h : st.queue = []) :
    ∀ fuel, bfsLoop rows cols fuel st = st := by
  intro fuel
  cases fuel with
  | zero => rfl
  | succ n => simp only [bfsLoop, h]

theorem visited_card_le {rows cols : ℤ} {st : BfsState}
    (hvb : ∀ v ∈ st.visited, inBounds rows cols v = true) :
    st.visited.card ≤ rows.toNat * cols.toNat := by
  have hsub : st.visited ⊆ cellBox rows cols := fun v hv => mem_cellBox (hvb v hv)
  have h := Finset.card_le_card hsub
  rw [cellBox_card] at h
  exact h

/-- With fuel at least `queue length + unvisited in-bounds cells`, the loop
drains its queue completely. -/
theorem loop_drain {rows cols : ℤ} :
    ∀ (fuel : ℕ) (st : BfsState),
      (∀ v ∈ st.visited, inBounds rows cols v = true) →
      st.queue.length + (rows.toNat * cols.toNat - st.visited.card) ≤ fuel →
      (bfsLoop rows cols fuel st).queue = [] := by
  intro fuel
  induction fuel with
  | zero =>
    intro st hvb hm
    have hlen : st.queue.length = 0 := by omega
    exact List.length_eq_zero.mp hlen
  | succ fuel ih =>
    intro st hvb hm
    cases hqe : st.queue with
    | nil =>
      rw [bfsLoop_empty hqe]
      exact hqe
    | cons e rest =>
      cases e with
      | mk p dq =>
      have hstep : bfsLoop rows cols (fuel + 1) st =
          bfsLoop rows cols fuel
            (List.foldl (bfsBody rows cols p dq) { st with queue := rest } directions) := by
        simp only [bfsLoop, hqe]
        rfl
      rw [hstep]
      obtain ⟨news, hq', hv', _, _, _, hprop, _, hcard⟩ :=
        bfsExpand_char rows cols p dq directions { st with queue := rest }
      dsimp only at hq' hv' hprop hcard
      have hvb2 : ∀ v ∈ (List.foldl (bfsBody rows cols p dq)
          { st with queue := rest } directions).visited, inBounds rows cols v = true := by
        intro v hv
        rw [hv'] at hv
        rcases Finset.mem_union.mp hv with h | h
        · exact hvb v h
        · exact (hprop v (List.mem_toFinset.mp h)).1
      apply ih _ hvb2
      have hlen2 : (List.foldl (bfsBody rows cols p dq)
          { st with queue := rest } directions).queue.length =
          rest.length + news.length := by
        rw [hq', List.length_append, List.length_map]
      have hlen : st.queue.length = rest.length + 1 := by rw [hqe]; rfl
      have hbound := visited_card_le hvb2
      omega

/-- Extra fuel after the queue has drained changes nothing. -/
theorem loop_extend {rows cols : ℤ} :
    ∀ (f : ℕ) (st : BfsState) (g : ℕ), f ≤ g →
      (bfsLoop rows cols f st).queue = [] →
      bfsLoop rows cols g st = bfsLoop rows cols f st := by
  intro f
  induction f with
  | zero =>
    intro st g _ hdone
    have hnil : st.queue = [] := hdone
    rw [bfsLoop_empty hnil]
    rfl
  | succ f ih =>
    intro st g hg hdone
    cases hqe : st.queue with
    | nil => rw [bfsLoop_empty hqe, bfsLoop_empty hqe]
    | cons e rest =>
      cases e with
      | mk p dq =>
      cases g with
      | zero => omega
      | succ g' =>
        have hstep : ∀ h, bfsLoop rows cols (h + 1) st =
            bfsLoop rows cols h (bfsExpand rows cols p dq { st with queue := rest }) := by
          intro h
          simp only [bfsLoop, hqe]
        rw [hstep g', hstep f]
        rw [hstep f] at hdone
        exact ih _ g' (by omega) hdone

/-- The invariant holds of the fully drained final state. -/
theorem inv_run {rows cols : ℤ} {S : List (ℤ × ℤ)}
    (hS : S.filter (fun s => inBounds rows cols s) ≠ []) :
    ∀ (fuel : ℕ) (st : BfsState), Inv rows cols S st →
      st.queue.length + (rows.toNat * cols.toNat - st.visited.card) ≤ fuel →
      Inv rows cols S (bfsLoop rows cols fuel st) ∧
        (bfsLoop rows cols fuel st).queue = [] := by
  intro fuel
  induction fuel with
  | zero =>
    intro st hInv hm
    have hnil : st.queue = [] := List.length_eq_zero.mp (by omega)
    exact ⟨hInv, hnil⟩
  | succ fuel ih =>
    intro st hInv hm
    cases hqe : st.queue with
    | nil =>
      rw [bfsLoop_empty hqe]
      exact ⟨hInv, hqe⟩
    | cons e rest =>
      cases e with
      | mk p dq =>
      have hstep : bfsLoop rows cols (fuel + 1) st =
          bfsLoop rows cols fuel (bfsExpand rows cols p dq { st with queue := rest }) := by
        simp only [bfsLoop, hqe]
      rw [hstep]
      have hInv2 := inv_step hS hInv hqe
      have hbound := visited_card_le (fun v hv => hInv2.vb v hv)
      unfold bfsExpand at hInv2 hbound ⊢
      obtain ⟨news, hq', hv', _, _, _, hprop, _, hcard⟩ :=
        bfsExpand_char rows cols p dq directions { st with queue := rest }
      dsimp only at hq' hv' hprop hcard
      apply ih _ hInv2
      have hlen2 : (List.foldl (bfsBody rows cols p dq)
          { st with queue := rest } directions).queue.length =
          rest.length + news.length := by
        rw [hq', List.length_append, List.length_map]
      have hlen : st.queue.length = rest.length + 1 := by rw [hqe]; rfl
      omega

/-- Full correctness of the BFS run: with at least one in-bounds station,
every in-bounds cell is visited and its final map entry is the minimum
Chebyshev distance to an in-bounds station. -/
theorem bfs_final {rows cols : ℤ} {S : List (ℤ × ℤ)}
    (hS : S.filter (fun s => inBounds rows cols s) ≠ []) :
    ∀ c : ℤ × ℤ, inBounds rows cols c = true →
      c ∈ (bfsLoop rows cols (S.length + rows.toNat * cols.toNat)
          (bfsInit rows cols S)).visited ∧
        (bfsLoop rows cols (S.length + rows.toNat * cols.toNat)
          (bfsInit rows cols S)).dmap c = nearestIB rows cols S c := by
  have hinit := inv_init rows cols S
  have hqlen : (bfsInit rows cols S).queue.length ≤ S.length := by
    rw [bfsInit_queue, List.length_map]
    exact List.length_filter_le _ _
  obtain ⟨hfin, hqnil⟩ := inv_run hS (S.length + rows.toNat * cols.toNat)
    (bfsInit rows cols S) hinit (by omega)
  have key : ∀ k (c : ℤ × ℤ), inBounds rows cols c = true →
      nearestIB rows cols S c = k →
      c ∈ (bfsLoop rows cols (S.length + rows.toNat * cols.toNat)
        (bfsInit rows cols S)).visited := by
    intro k
    induction k using Nat.strong_induction_on with
    | _ k ihk =>
      intro c hb hk
      cases k with
      | zero =>
        have hmem := nearestIB_zero hS hk
        have hf := List.mem_filter.mp hmem
        exact hfin.sv c hf.1 hf.2
      | succ k' =>
        obtain ⟨d, hd, hb', hN'⟩ := nearestIB_step hS hb hk
        have hvis' := ihk k' (by omega) _ hb' hN'
        by_contra hc
        have hcc : ((c.1 + d.1) + (-d.1, -d.2).1, (c.2 + d.2) + (-d.1, -d.2).2) = c := by
          apply Prod.ext <;> dsimp <;> ring
        obtain ⟨e, he, _⟩ := hfin.close _ hvis' (-d.1, -d.2) (neg_mem_directions d hd)
          (by rw [hcc]; exact hb) (by rw [hcc]; exact hc)
        rw [hqnil] at he
        cases he
  intro c hb
  have hv := key (nearestIB rows cols S c) c hb rfl
  exact ⟨hv, hfin.vd c hv⟩

/-- The BFS distance field equals the minimum Chebyshev distance to the
in-bounds stations, at every in-bounds cell. -/
theorem bfs_eq_nearestIB {rows cols : ℤ} {S : List (ℤ × ℤ)}
    (hS : S.filter (fun s => inBounds rows cols s) ≠ []) (c : ℤ × ℤ)
    (hb : inBounds rows cols c = true) :
    get_nearest_distance_to_police_stations_bfs rows cols S c =
      nearestIB rows cols S c :=
  (bfs_final hS c hb).2

/-- With no station inside the grid, the initial queue is empty, the loop
does nothing, and the returned map holds the initialisation value `0` at
every cell — no error is raised. -/
theorem bfs_all_out {rows cols : ℤ} {S : List (ℤ × ℤ)}
    (h : ∀ s ∈ S, inBounds rows cols s = false) (c : ℤ × ℤ) :
    get_nearest_distance_to_police_stations_bfs rows cols S c = 0 := by
  have hfil : S.filter (fun s => inBounds rows cols s) = [] := by
    refine List.filter_eq_nil_iff.mpr (fun a ha => ?_)
    rw [h a ha]
    exact Bool.false_ne_true
  have hqnil : (bfsInit rows cols S).queue = [] := by
    rw [bfsInit_queue, hfil]
    rfl
  unfold get_nearest_distance_to_police_stations_bfs
  rw [bfsLoop_empty hqnil, bfsInit_dmap]

/-- The BFS run on a station list and on its in-bounds sublist are
identical: the initial states agree and extra fuel is irrelevant. -/
theorem bfs_filter_eq (rows cols : ℤ) (S : List (ℤ × ℤ)) (c : ℤ × ℤ) :
    get_nearest_distance_to_police_stations_bfs rows cols S c =
      get_nearest_distance_to_police_stations_bfs rows cols
        (S.filter (fun s => inBounds rows cols s)) c := by
  have hfil : (S.filter (fun s => inBounds rows cols s)).filter
      (fun s => inBounds rows cols s) = S.filter (fun s => inBounds rows cols s) :=
    List.filter_eq_self.mpr (fun a ha => (List.mem_filter.mp ha).2)
  have hinit_eq : bfsInit rows cols S =
      bfsInit rows cols (S.filter (fun s => inBounds rows cols s)) := by
    refine BfsState.ext ?_ ?_ ?_
    · funext x
      rw [bfsInit_dmap, bfsInit_dmap]
    · rw [bfsInit_visited, bfsInit_visited, hfil]
    · rw [bfsInit_queue, bfsInit_queue, hfil]
  unfold get_nearest_distance_to_police_stations_bfs
  rw [hinit_eq]
  have hvbF := (inv_init rows cols (S.filter (fun s => inBounds rows cols s))).vb
  have hqlenF : (bfsInit rows cols (S.filter (fun s => inBounds rows cols s))).queue.length ≤
      (S.filter (fun s => inBounds rows cols s)).length := by
    rw [bfsInit_queue, List.length_map]
    exact List.length_filter_le _ _
  have hdrain : (bfsLoop rows cols
      ((S.filter (fun s => inBounds rows cols s)).length + rows.toNat * cols.toNat)
      (bfsInit rows cols (S.filter (fun s => inBounds rows cols s)))).queue = [] :=
    loop_drain _ _ hvbF (by omega)
  have hFS : (S.filter (fun s => inBounds rows cols s)).length ≤ S.length :=
    List.length_filter_le _ _
  have hext := loop_extend
    ((S.filter (fun s => inBounds rows cols s)).length + rows.toNat * cols.toNat)
    (bfsInit rows cols (S.filter (fun s => inBounds rows cols s)))
    (S.length + rows.toNat * cols.toNat) (by omega) hdrain
  rw [hext]

/-! ### Claim theorems -/

/-- Claim C1, amended: for every grid (`rows > 0`, `cols > 0`) and every
non-empty station list **all of whose stations lie inside the grid**, the
brute-force, flood-fill (BFS) and KD-tree strategies return the same
distance at every grid cell (exact integer equality), and the radius
solver returns the `max`-fold of that common per-cell distance. -/
theorem claim_C1 (rows cols : ℤ) (stations : List (ℤ × ℤ))
    (_hr : 0 < rows) (_hc : 0 < cols) (hne : stations ≠ [])
    (hin : ∀ s ∈ stations, inBounds rows cols s = true) :
    (∀ c ∈ cellsOf rows cols,
      get_nearest_distance_to_police_stations_brutal_force c.1 c.2 stations =
        WithTop.some (get_nearest_distance_to_police_stations_bfs rows cols stations c) ∧
      get_nearest_distance_to_police_stations_kd_tree c.1 c.2 stations =
        some (get_nearest_distance_to_police_stations_bfs rows cols stations c)) ∧
    get_largest_nearest_distance_to_police_stations rows cols stations =
      some ((cellsOf rows cols).foldl
        (fun a c => max a (get_nearest_distance_to_police_stations_bfs rows cols stations c))
        0) := by
  have hfe : stations.filter (fun s => inBounds rows cols s) = stations :=
    List.filter_eq_self.mpr hin
  have hS : stations.filter (fun s => inBounds rows cols s) ≠ [] := by
    rw [hfe]
    exact hne
  have hbfs : ∀ c ∈ cellsOf rows cols,
      get_nearest_distance_to_police_stations_bfs rows cols stations c =
        minCheb c stations := by
    intro c hcm
    rw [bfs_eq_nearestIB hS c (mem_cellsOf.mp hcm), nearestIB, hfe]
  constructor
  · intro c hcm
    constructor
    · rw [brutal_force_eq_minCheb hne, Prod.mk.eta, hbfs c hcm]
    · rw [kd_tree_eq_minCheb hne, Prod.mk.eta, hbfs c hcm]
  · rw [solver_eq_some hne]
    congr 1
    exact foldl_max_congr _ _ (cellsOf rows cols) 0 (fun c hcm => (hbfs c hcm).symm)

/-- Claim C1, counterexample to the original statement: with the station
`(0, 3)` outside the `1 × 3` grid, brute force reports distance `1` at
cell `(0, 2)` while the BFS (which ignores out-of-bounds stations)
reports `2`. -/
theorem claim_C1_counterexample :
    get_nearest_distance_to_police_stations_brutal_force 0 2
        [((0 : ℤ), (0 : ℤ)), ((0 : ℤ), (3 : ℤ))] = WithTop.some 1 ∧
    get_nearest_distance_to_police_stations_bfs 1 3
        [((0 : ℤ), (0 : ℤ)), ((0 : ℤ), (3 : ℤ))] ((0 : ℤ), (2 : ℤ)) = 2 := by
  constructor
  · rfl
  · decide

/-- Witness for `claim_C1` at a concrete input. -/
theorem claim_C1_witness :
    get_nearest_distance_to_police_stations_brutal_force 0 1 [((0 : ℤ), (0 : ℤ))] =
      WithTop.some (get_nearest_distance_to_police_stations_bfs 2 2
        [((0 : ℤ), (0 : ℤ))] ((0 : ℤ), (1 : ℤ))) ∧
    get_nearest_distance_to_police_stations_kd_tree 0 1 [((0 : ℤ), (0 : ℤ))] =
      some (get_nearest_distance_to_police_stations_bfs 2 2
        [((0 : ℤ), (0 : ℤ))] ((0 : ℤ), (1 : ℤ))) :=
  (claim_C1 2 2 [((0 : ℤ), (0 : ℤ))] (by decide) (by decide) (by decide)
    (by decide)).1 ((0 : ℤ), (1 : ℤ)) (by decide)

/-- Claim C2: for `rows > 0`, `cols > 0` and a non-empty station list the
radius solver returns `R` = the maximum over all cells of the
nearest-station distance; every cell's distance is `≤ R` and at least one
cell attains `R`. -/
theorem claim_C2 (rows cols : ℤ) (stations : List (ℤ × ℤ))
    (hr : 0 < rows) (hc : 0 < cols) (hne : stations ≠ []) :
    ∃ R, get_largest_nearest_distance_to_police_stations rows cols stations = some R ∧
      (∀ c ∈ cellsOf rows cols, minCheb c stations ≤ R) ∧
      (∃ c ∈ cellsOf rows cols, minCheb c stations = R) := by
  refine ⟨(cellsOf rows cols).foldl (fun a c => max a (minCheb c stations)) 0,
    solver_eq_some hne, ?_, ?_⟩
  · intro c hcm
    exact mem_le_foldl_max (fun c => minCheb c stations) (cellsOf rows cols) 0 c hcm
  · rcases foldl_max_cases (fun c => minCheb c stations) (cellsOf rows cols) 0 with
      h | ⟨t, ht, h⟩
    · refine ⟨((0 : ℤ), (0 : ℤ)), zero_mem_cellsOf hr hc, ?_⟩
      have hle := mem_le_foldl_max (fun c => minCheb c stations) (cellsOf rows cols) 0
        ((0 : ℤ), (0 : ℤ)) (zero_mem_cellsOf hr hc)
      have h0 : minCheb ((0 : ℤ), (0 : ℤ)) stations = 0 := by
        rw [h] at hle
        exact Nat.le_zero.mp hle
      exact h0.trans h.symm
    · exact ⟨t, ht, h.symm⟩

/-- Witness for `claim_C2` at a concrete input. -/
theorem claim_C2_witness :
    ∃ R, get_largest_nearest_distance_to_police_stations 1 1 [((0 : ℤ), (0 : ℤ))] = some R ∧
      (∀ c ∈ cellsOf 1 1, minCheb c [((0 : ℤ), (0 : ℤ))] ≤ R) ∧
      (∃ c ∈ cellsOf 1 1, minCheb c [((0 : ℤ), (0 : ℤ))] = R) :=
  claim_C2 1 1 [((0 : ℤ), (0 : ℤ))] (by decide) (by decide) (by decide)

/-- Claim C3, amended: the code performs no input validation.  A
non-positive `rows` or `cols` makes the cell loops empty and the solver
returns the result `0` without any error; an empty station list with a
real grid aborts only when the first per-cell KD-tree query raises,
inside the loop, not before the computation starts. -/
theorem claim_C3 (rows cols : ℤ) (stations : List (ℤ × ℤ)) :
    ((rows ≤ 0 ∨ cols ≤ 0) →
      get_largest_nearest_distance_to_police_stations rows cols stations = some 0) ∧
    (0 < rows → 0 < cols →
      get_largest_nearest_distance_to_police_stations rows cols [] = none) :=
  ⟨fun h => solver_degenerate stations h, fun hr hc => solver_empty_stations hr hc⟩

/-- Claim C3, counterexample to the original statement: the invalid input
`rows = 0` is not rejected — the solver returns the radius `0`. -/
theorem claim_C3_counterexample :
    get_largest_nearest_distance_to_police_stations 0 5 [((0 : ℤ), (0 : ℤ))] = some 0 := by
  rfl

/-- Witness for `claim_C3` at concrete inputs. -/
theorem claim_C3_witness :
    get_largest_nearest_distance_to_police_stations (-2) 7 [((1 : ℤ), (1 : ℤ))] = some 0 ∧
    get_largest_nearest_distance_to_police_stations 3 3 [] = none :=
  ⟨(claim_C3 (-2) 7 [((1 : ℤ), (1 : ℤ))]).1 (Or.inl (by norm_num)),
    (claim_C3 3 3 []).2 (by norm_num) (by norm_num)⟩

/-- Claim C4, amended: when no station lies inside the grid bounds the BFS
does **not** fail — the initial queue stays empty and the function returns
a distance field holding the initialisation value `0` at every cell. -/
theorem claim_C4 (rows cols : ℤ) (stations : List (ℤ × ℤ))
    (h : ∀ s ∈ stations, inBounds rows cols s = false) (c : ℤ × ℤ) :
    get_nearest_distance_to_police_stations_bfs rows cols stations c = 0 :=
  bfs_all_out h c

/-- Claim C4, counterexample to the original statement: with the only
station `(5, 5)` outside the `1 × 1` grid the BFS raises no error — it
returns a distance field, with value `0` at the (never reached) cell. -/
theorem claim_C4_counterexample :
    (bfsInit 1 1 [((5 : ℤ), (5 : ℤ))]).queue = [] ∧
    get_nearest_distance_to_police_stations_bfs 1 1 [((5 : ℤ), (5 : ℤ))]
      ((0 : ℤ), (0 : ℤ)) = 0 := by
  constructor
  · rfl
  · rfl

/-- Witness for `claim_C4` at a concrete input. -/
theorem claim_C4_witness :
    get_nearest_distance_to_police_stations_bfs 2 2 [((9 : ℤ), (9 : ℤ))]
      ((1 : ℤ), (1 : ℤ)) = 0 :=
  claim_C4 2 2 [((9 : ℤ), (9 : ℤ))] (by decide) ((1 : ℤ), (1 : ℤ))

/-- Claim C5: the BFS ignores out-of-bounds stations — its result on any
station list equals its result on the sublist of in-bounds stations. -/
theorem claim_C5 (rows cols : ℤ) (stations : List (ℤ × ℤ)) (c : ℤ × ℤ) :
    get_nearest_distance_to_police_stations_bfs rows cols stations c =
      get_nearest_distance_to_police_stations_bfs rows cols
        (stations.filter (fun s => inBounds rows cols s)) c :=
  bfs_filter_eq rows cols stations c

/-- Claim C6, counterexample to the original statement: on the 4×4 grid
with stations `(0,0)` and `(3,3)` the solved radius is not `2`. -/
theorem claim_C6_counterexample :
    get_largest_nearest_distance_to_police_stations 4 4
      [((0 : ℤ), (0 : ℤ)), ((3 : ℤ), (3 : ℤ))] ≠ some 2 := by
  decide

/-- Claim C6, amended: on the 4×4 grid with stations `(0,0)` and `(3,3)`
under the Chebyshev metric the solved minimal covering radius equals `3`
(attained e.g. at cell `(0,3)`). -/
theorem claim_C6 :
    get_largest_nearest_distance_to_police_stations 4 4
      [((0 : ℤ), (0 : ℤ)), ((3 : ℤ), (3 : ℤ))] = some 3 := by
  decide

/-- Claim C7: the solver result is antitone in the station set under
inclusion — removing stations (passing to a subset) never decreases the
radius, adding stations never increases it. -/
theorem claim_C7 (rows cols : ℤ) (s₁ s₂ : List (ℤ × ℤ)) (h₁ : s₁ ≠ [])
    (hsub : s₁ ⊆ s₂) :
    ∃ r₁ r₂, get_largest_nearest_distance_to_police_stations rows cols s₁ = some r₁ ∧
      get_largest_nearest_distance_to_police_stations rows cols s₂ = some r₂ ∧
      r₂ ≤ r₁ := by
  have h₂ : s₂ ≠ [] := by
    cases s₁ with
    | nil => exact absurd rfl h₁
    | cons a t => exact List.ne_nil_of_mem (hsub (List.mem_cons_self a t))
  refine ⟨_, _, solver_eq_some h₁, solver_eq_some h₂, ?_⟩
  apply foldl_max_mono _ _ (cellsOf rows cols) 0 0 le_rfl
  intro c _
  exact minCheb_anti h₁ hsub

/-- Witness for `claim_C7` at a concrete input. -/
theorem claim_C7_witness :
    ∃ r₁ r₂,
      get_largest_nearest_distance_to_police_stations 1 1 [((0 : ℤ), (0 : ℤ))] = some r₁ ∧
      get_largest_nearest_distance_to_police_stations 1 1
        [((0 : ℤ), (0 : ℤ)), ((1 : ℤ), (1 : ℤ))] = some r₂ ∧
      r₂ ≤ r₁ :=
  claim_C7 1 1 [((0 : ℤ), (0 : ℤ))] [((0 : ℤ), (0 : ℤ)), ((1 : ℤ), (1 : ℤ))]
    (by decide)
    (by
      intro a ha
      rw [List.mem_singleton] at ha
      rw [ha]
      exact List.mem_cons_self _ _)

/-- Claim C8, amended: with at least one in-bounds station every grid cell
is visited (marking is idempotent; a duplicated station is enqueued once
per occurrence at initialisation, so "exactly once" fails there), each
cell discovered at BFS depth `k` is assigned distance `k`, and the
returned field is fully populated: every in-bounds cell holds the
Chebyshev distance to its nearest in-bounds station, and only in-bounds
cells are ever visited. -/
theorem claim_C8 (rows cols : ℤ) (stations : List (ℤ × ℤ))
    (hS : stations.filter (fun s => inBounds rows cols s) ≠ []) :
    (∀ c : ℤ × ℤ, inBounds rows cols c = true →
      c ∈ (bfsLoop rows cols (stations.length + rows.toNat * cols.toNat)
          (bfsInit rows cols stations)).visited ∧
        get_nearest_distance_to_police_stations_bfs rows cols stations c =
          nearestIB rows cols stations c) ∧
    (∀ v ∈ (bfsLoop rows cols (stations.length + rows.toNat * cols.toNat)
        (bfsInit rows cols stations)).visited, inBounds rows cols v = true) := by
  have hqlen : (bfsInit rows cols stations).queue.length ≤ stations.length := by
    rw [bfsInit_queue, List.length_map]
    exact List.length_filter_le _ _
  obtain ⟨hfin, _⟩ := inv_run hS (stations.length + rows.toNat * cols.toNat)
    (bfsInit rows cols stations) (inv_init rows cols stations) (by omega)
  exact ⟨fun c hb => ⟨(bfs_final hS c hb).1, (bfs_final hS c hb).2⟩, hfin.vb⟩

/-- Claim C8, counterexample to the original statement: a duplicated
station is enqueued twice by the initialisation (there is no visited
check there), so cell `(0,0)` is processed twice and "the visited-set
check prevents any re-enqueue" fails. -/
theorem claim_C8_counterexample :
    (bfsInit 1 1 [((0 : ℤ), (0 : ℤ)), ((0 : ℤ), (0 : ℤ))]).queue =
      [(((0 : ℤ), (0 : ℤ)), 0), (((0 : ℤ), (0 : ℤ)), 0)] := by
  rfl

/-- Witness for `claim_C8` at a concrete input. -/
theorem claim_C8_witness :
    ((0 : ℤ), (0 : ℤ)) ∈ (bfsLoop 1 1 2 (bfsInit 1 1 [((0 : ℤ), (0 : ℤ))])).visited ∧
    get_nearest_distance_to_police_stations_bfs 1 1 [((0 : ℤ), (0 : ℤ))]
        ((0 : ℤ), (0 : ℤ)) =
      nearestIB 1 1 [((0 : ℤ), (0 : ℤ))] ((0 : ℤ), (0 : ℤ)) :=
  (claim_C8 1 1 [((0 : ℤ), (0 : ℤ))] (by decide)).1 ((0 : ℤ), (0 : ℤ)) (by decide)

/-- Claim C10: on an empty station list the brute-force distance function
raises no error and returns positive infinity (`float('inf')`, the fold's
initial value) for every queried cell. -/
theorem claim_C10 (i j : ℤ) :
    get_nearest_distance_to_police_stations_brutal_force i j [] = ⊤ :=
  rfl

end PoliceCoverage
